import Mathlib

/-!
Verification of the firestore-pagination-materializer utility.

The embedding models the document store as explicit lists: a source
collection is the ordered result list of the caller's filtered/sorted
query (each document carrying the identifier that serves as its cursor),
and a destination collection is the list of materialized page entries in
write order.  The four operations of the source (`savePageToCollection`,
`readPages`, `materializePaginationResults`, `readMaterializedPages`)
are translated as pure functions over these lists; the two generator
loops are written with an explicit fuel argument whose adequacy is
proved separately.
-/

/-- A dynamic value stored in a metadata mapping (string / number /
boolean), mirroring the open-ended `Record<string, any>` bag used by the
source for page metadata. -/
inductive Val where
  | str : String → Val
  | num : Nat → Val
  | bool : Bool → Val
deriving DecidableEq

/-- A metadata mapping: an ordered association list from field name to
value, the shape of a JavaScript object literal. -/
abbrev Metadata : Type := List (String × Val)

/-- Lookup of a field of a metadata mapping (first binding wins, and
objects built by the source never carry duplicate keys). -/
def getField (m : Metadata) (k : String) : Option Val :=
  (m.find? (fun p => decide (p.1 = k))).map (fun p => p.2)

/-- Overwrite-or-append of one key, the behavior of the JavaScript
spread `\x7b...m, k: v\x7d`: an existing key keeps its position and gets the
new value, a fresh key is appended at the end. -/
def setKey (m : Metadata) (k : String) (v : Val) : Metadata :=
  if m.any (fun p => decide (p.1 = k)) then
    m.map (fun p => if p.1 = k then (k, v) else p)
  else m ++ [(k, v)]

/-- Page metadata computed by `readPages`:
`metadata ? \x7b ...metadata, pageNumber \x7d : \x7b pageNumber \x7d`. -/
def mergePageNumber (md : Option Metadata) (n : Nat) : Metadata :=
  match md with
  | none => [("pageNumber", Val.num n)]
  | some m => setKey m "pageNumber" (Val.num n)

/-- A document of the source collection: its identifier (the value used
as a cursor, an opaque totally ordered id) and its payload. -/
structure Doc (D : Type) where
  id : Nat
  data : D
deriving DecidableEq

/-- A page yielded by `readPages`: the id of the last document of the
batch, the batch payloads in result order, and the merged metadata. -/
structure Page (D : Type) where
  cursor : Option Nat
  data : List D
  metadata : Metadata
deriving DecidableEq

/-- A materialized entry of the destination collection, exactly the
fields `\x7bcursor, data, metadata\x7d` passed to `addDoc` by
`savePageToCollection`. -/
structure Entry (D : Type) where
  cursor : Option Nat
  data : List D
  metadata : Option Metadata
deriving DecidableEq

/-- An item yielded by `readMaterializedPages`: the `data` and
`metadata` fields of one stored entry. -/
structure MatPage (D : Type) where
  data : List D
  metadata : Option Metadata
deriving DecidableEq

/-- The `startAfter` constraint of `readPages`: with no cursor the query
is unrestricted, with cursor `c` it returns the documents strictly after
the document identified by `c` (the source's cursor totally orders the
query's results). -/
def afterC {D : Type} (lastCursor : Option Nat) (docs : List (Doc D)) : List (Doc D) :=
  match lastCursor with
  | none => docs
  | some c => docs.filter (fun d => decide (c < d.id))

/-- One `getDocs` call of `readPages`: the base query plus
`limit(batchSize)` plus the optional `startAfter` cursor. -/
def srcQuery {D : Type} (docs : List (Doc D)) (lastCursor : Option Nat) (B : Nat) :
    List (Doc D) :=
  (afterC lastCursor docs).take B

/-- The loop body of `readPages`, with explicit fuel for the
`while (true)` loop: run the query; stop on an empty snapshot; otherwise
yield the page (cursor = last document id, data = payloads in order,
metadata merged with the page counter) and continue after the last
document with the counter incremented. -/
def readPagesAux {D : Type} (docs : List (Doc D)) (B : Nat) (md : Option Metadata) :
    Option Nat → Nat → Nat → List (Page D)
  | _, _, 0 => []
  | lastCursor, pageNumber, fuel + 1 =>
    let snap := srcQuery docs lastCursor B
    match snap.getLast? with
    | none => []
    | some lastDoc =>
      { cursor := some lastDoc.id
        data := snap.map (fun d => d.data)
        metadata := mergePageNumber md pageNumber } ::
        readPagesAux docs B md (some lastDoc.id) (pageNumber + 1) fuel

/-- `readPages`: the full sequence of pages produced by one call of the
source page reader (cursor initially null, page counter initially 1).
The fuel `docs.length + 1` is sufficient because the number of documents
strictly after the cursor decreases at every yielded page. -/
def readPages {D : Type} (docs : List (Doc D)) (B : Nat) (md : Option Metadata) :
    List (Page D) :=
  readPagesAux docs B md none 1 (docs.length + 1)

/-- `savePageToCollection`: one `addDoc` appending a single entry with
fields exactly `\x7bcursor, data, metadata\x7d` to the destination. -/
def savePageToCollection {D : Type} (collectionRef : List (Entry D)) (data : List D)
    (cursor : Option Nat) (metadata : Option Metadata) : List (Entry D) :=
  collectionRef ++ [{ cursor := cursor, data := data, metadata := metadata }]

/-- The entry that materializing one page stores. -/
def pageToEntry {D : Type} (p : Page D) : Entry D :=
  { cursor := p.cursor, data := p.data, metadata := some p.metadata }

/-- Failure injection for the materializer: no failure, or the n-th
source `getDocs` fails, or the n-th destination `addDoc` fails
(0-based). -/
inductive FailSpec where
  | noFail : FailSpec
  | failRead : Nat → FailSpec
  | failWrite : Nat → FailSpec
deriving DecidableEq

/-- An observable store operation completed by the materializer: one
source page read, or one destination write of a given entry. -/
inductive Ev (D : Type) where
  | readEv : Ev D
  | writeEv : Entry D → Ev D
deriving DecidableEq

/-- Outcome of one materializer run: whether it completed without a
store failure, the final destination contents, and the trace of
completed store operations in execution order. -/
structure MatRun (D : Type) where
  ok : Bool
  dest : List (Entry D)
  trace : List (Ev D)
deriving DecidableEq

/-- The `for await` loop of `materializePaginationResults` over the page
sequence the source reader would produce: each iteration performs one
page read then one page write before requesting the next page; the first
failing read or write aborts the run, keeping what was already written. -/
def materializeAux {D : Type} (fs : FailSpec) :
    List (Page D) → Nat → List (Entry D) → MatRun D
  | [], i, dest =>
    if fs = FailSpec.failRead i then ⟨false, dest, []⟩
    else ⟨true, dest, [Ev.readEv]⟩
  | p :: ps, i, dest =>
    if fs = FailSpec.failRead i then ⟨false, dest, []⟩
    else if fs = FailSpec.failWrite i then ⟨false, dest, [Ev.readEv]⟩
    else
      let rest := materializeAux fs ps (i + 1)
        (savePageToCollection dest p.data p.cursor (some p.metadata))
      ⟨rest.ok, rest.dest, Ev.readEv :: Ev.writeEv (pageToEntry p) :: rest.trace⟩

/-- `materializePaginationResults`: drive `readPages` over the source and
write every yielded page to the destination, under a failure
injection. -/
def materializePaginationResults {D : Type} (sourceDocs : List (Doc D))
    (destinationCollectionRef : List (Entry D)) (B : Nat) (md : Option Metadata)
    (fs : FailSpec) : MatRun D :=
  materializeAux fs (readPages sourceDocs B md) 0 destinationCollectionRef

/-- Order of the `cursor` field used by `orderBy('cursor')`: null sorts
before every id, ids by their numeric order. -/
def cursorLe : Option Nat → Option Nat → Bool
  | none, _ => true
  | some _, none => false
  | some a, some b => decide (a ≤ b)

/-- Strict version of the cursor order, the `startAfter` bound of the
materialized-page reader: nothing is after null is false, every id is
after null, ids strictly by numeric order. -/
def cursorLt : Option Nat → Option Nat → Bool
  | _, none => false
  | none, some _ => true
  | some a, some b => decide (a < b)

/-- One `where('metadata.key', '==', value)` constraint per filter pair:
an entry matches when its stored metadata has every filter key with
exactly the filter value (an entry without metadata matches no pair). -/
def entryMatches {D : Type} (f : Metadata) (e : Entry D) : Bool :=
  f.all (fun kv =>
    match e.metadata with
    | none => false
    | some m => decide (getField m kv.1 = some kv.2))

/-- The optional metadata filter of `readMaterializedPages`: absent
means no constraint. -/
def matchesOptFilter {D : Type} (f : Option Metadata) (e : Entry D) : Bool :=
  match f with
  | none => true
  | some m => entryMatches m e

/-- Comparison of two entries by their stored cursor field. -/
def entryLe {D : Type} (e₁ e₂ : Entry D) : Prop :=
  cursorLe e₁.cursor e₂.cursor = true

instance {D : Type} : DecidableRel (entryLe (D := D)) :=
  fun e₁ e₂ => inferInstanceAs (Decidable (cursorLe e₁.cursor e₂.cursor = true))

/-- One `getDocs` call of `readMaterializedPages`: the destination
ordered by the stored cursor field, constrained to start strictly after
the last seen cursor, with one equality constraint per metadata filter
pair.  The query carries no limit. -/
def mquery {D : Type} (entries : List (Entry D)) (f : Option Metadata)
    (lastCursor : Option Nat) : List (Entry D) :=
  List.insertionSort entryLe
    (entries.filter (fun e => cursorLt lastCursor e.cursor && matchesOptFilter f e))

/-- The loop body of `readMaterializedPages` with explicit fuel: run the
query; stop on an empty snapshot; otherwise yield `\x7bdata, metadata\x7d` once
per returned entry (not once per batch), remember the last entry's
stored cursor, and loop.  The second component counts executed
queries. -/
def readMatAux {D : Type} (entries : List (Entry D)) (f : Option Metadata) :
    Option Nat → Nat → List (MatPage D) × Nat
  | _, 0 => ([], 0)
  | lastCursor, fuel + 1 =>
    let snap := mquery entries f lastCursor
    match snap.getLast? with
    | none => ([], 1)
    | some lastEntry =>
      let rest := readMatAux entries f lastEntry.cursor fuel
      (snap.map (fun e => { data := e.data, metadata := e.metadata }) ++ rest.1,
        rest.2 + 1)

/-- `readMaterializedPages`: the yielded items and the number of query
executions of one call of the materialized-page reader (last seen cursor
initially null). -/
def readMaterializedPages {D : Type} (entries : List (Entry D)) (f : Option Metadata) :
    List (MatPage D) × Nat :=
  readMatAux entries f none (entries.length + 1)

/-- The item `readMaterializedPages` yields for one stored entry. -/
def entryOut {D : Type} (e : Entry D) : MatPage D :=
  { data := e.data, metadata := e.metadata }

/-- The source collection as seen by one `readPages` traversal: the
query's result order, with the document ids (the cursor values) strictly
increasing along it — the data-model invariant that the cursor totally
orders the query's results. -/
def IdSorted {D : Type} (docs : List (Doc D)) : Prop :=
  List.Pairwise (fun a b => a.id < b.id) docs

/-- Reference chunking of a list into consecutive batches of `B`
(meaningful for `0 < B`). -/
def chunks {D : Type} (B : Nat) (l : List D) : List (List D) :=
  match l with
  | [] => []
  | a :: t => (a :: t.take (B - 1)) :: chunks B (t.drop (B - 1))
termination_by l.length
decreasing_by simp [List.length_drop]; omega

/-- The pages `readPages` produces, described chunk by chunk: page k
carries the last id of its chunk as cursor, the chunk's payloads as
data, and the base metadata merged with page number k. -/
def pagesFromChunks {D : Type} (md : Option Metadata) :
    Nat → List (List (Doc D)) → List (Page D)
  | _, [] => []
  | pn, c :: cs =>
    { cursor := (c.getLast?).map (fun d => d.id)
      data := c.map (fun d => d.data)
      metadata := mergePageNumber md pn } :: pagesFromChunks md (pn + 1) cs

/-! ### Metadata merging -/

theorem getField_nil (k : String) : getField [] k = none := rfl

theorem getField_cons (q : String × Val) (t : Metadata) (k : String) :
    getField (q :: t) k = if q.1 = k then some q.2 else getField t k := by
  by_cases h : q.1 = k
  · simp [getField, List.find?_cons_of_pos, h]
  · simp only [if_neg h]
    unfold getField
    rw [List.find?_cons_of_neg]
    simp [h]

theorem getField_map_overwrite (m : Metadata) (k : String) (v : Val) :
    getField (m.map (fun p => if p.1 = k then (k, v) else p)) k =
      if m.any (fun p => decide (p.1 = k)) then some v else none := by
  induction m with
  | nil => simp [getField]
  | cons q t ih =>
    by_cases hq : q.1 = k
    · simp [getField_cons, hq, List.any_cons]
    · have hd : decide (q.1 = k) = false := by simp [hq]
      rw [List.map_cons, if_neg hq, getField_cons, if_neg hq, ih, List.any_cons, hd,
        Bool.false_or]

theorem getField_append_single (m : Metadata) (k : String) (v : Val)
    (h : ∀ p ∈ m, p.1 ≠ k) : getField (m ++ [(k, v)]) k = some v := by
  induction m with
  | nil => simp [getField_cons]
  | cons q t ih =>
    have hq : q.1 ≠ k := h q (by simp)
    have := ih (fun p hp => h p (by simp [hp]))
    simpa [getField_cons, hq] using this

theorem getField_setKey_self (m : Metadata) (k : String) (v : Val) :
    getField (setKey m k v) k = some v := by
  unfold setKey
  by_cases h : m.any (fun p => decide (p.1 = k)) = true
  · rw [if_pos h, getField_map_overwrite, if_pos h]
  · rw [if_neg h]
    refine getField_append_single m k v ?_
    intro p hp hpk
    exact h (List.any_eq_true.2 ⟨p, hp, by simp [hpk]⟩)

theorem getField_map_overwrite_other (m : Metadata) (k key : String) (v : Val)
    (hne : key ≠ k) :
    getField (m.map (fun p => if p.1 = k then (k, v) else p)) key = getField m key := by
  induction m with
  | nil => simp
  | cons q t ih =>
    by_cases hq : q.1 = k
    · have hq3 : ¬(q.1 = key) := by rw [hq]; exact Ne.symm hne
      simp [getField_cons, hq, Ne.symm hne, hq3, ih]
    · by_cases hqk : q.1 = key
      · simp [getField_cons, hq, hqk, hne]
      · simp [getField_cons, hq, hqk, ih]

theorem getField_setKey_other (m : Metadata) (k key : String) (v : Val)
    (hne : key ≠ k) : getField (setKey m k v) key = getField m key := by
  unfold setKey
  by_cases h : m.any (fun p => decide (p.1 = k)) = true
  · rw [if_pos h]
    exact getField_map_overwrite_other m k key v hne
  · rw [if_neg h, getField]
    rw [List.find?_append]
    have hsingle : List.find? (fun p => decide (p.1 = key)) [(k, v)] = none := by
      simp [List.find?, Ne.symm hne]
    rw [hsingle, Option.or_none]
    rfl

theorem getField_mergePageNumber_self (md : Option Metadata) (n : Nat) :
    getField (mergePageNumber md n) "pageNumber" = some (Val.num n) := by
  cases md with
  | none => simp [mergePageNumber, getField, List.find?]
  | some m => exact getField_setKey_self m "pageNumber" (Val.num n)

theorem getField_mergePageNumber_other (md : Option Metadata) (n : Nat) (key : String)
    (hne : key ≠ "pageNumber") :
    getField (mergePageNumber md n) key = md.bind (fun m => getField m key) := by
  cases md with
  | none => simp [mergePageNumber, getField_cons, Ne.symm hne, getField_nil]
  | some m => simpa using getField_setKey_other m "pageNumber" key (Val.num n) hne

/-! ### Unfolding equations of the fuel loops -/

theorem readPagesAux_zero {D : Type} (docs : List (Doc D)) (B : Nat)
    (md : Option Metadata) (lc : Option Nat) (pn : Nat) :
    readPagesAux docs B md lc pn 0 = [] := rfl

theorem readPagesAux_succ {D : Type} (docs : List (Doc D)) (B : Nat)
    (md : Option Metadata) (lc : Option Nat) (pn fuel : Nat) :
    readPagesAux docs B md lc pn (fuel + 1) =
      match (srcQuery docs lc B).getLast? with
      | none => []
      | some lastDoc =>
        { cursor := some lastDoc.id
          data := (srcQuery docs lc B).map (fun d => d.data)
          metadata := mergePageNumber md pn } ::
          readPagesAux docs B md (some lastDoc.id) (pn + 1) fuel := rfl

/-! ### The page counter of the source reader -/

theorem get_cons_succ_of_eq {A : Type} {l t : List A} {a : A} (h : l = a :: t)
    (i : Nat) (hi : i + 1 < l.length) (hi2 : i < t.length) :
    l.get ⟨i + 1, hi⟩ = t.get ⟨i, hi2⟩ := by
  subst h
  simp

theorem readPagesAux_metadata {D : Type} (docs : List (Doc D)) (B : Nat)
    (md : Option Metadata) :
    ∀ (fuel : Nat) (lc : Option Nat) (pn i : Nat)
      (hi : i < (readPagesAux docs B md lc pn fuel).length),
      ((readPagesAux docs B md lc pn fuel).get ⟨i, hi⟩).metadata =
        mergePageNumber md (pn + i) := by
  intro fuel
  induction fuel with
  | zero => intro lc pn i hi; simp [readPagesAux_zero] at hi
  | succ fuel ih =>
    intro lc pn i hi
    rcases hsnap : (srcQuery docs lc B).getLast? with _ | lastDoc
    · rw [readPagesAux_succ] at hi
      simp only [hsnap, List.length_nil] at hi
      omega
    · have hunfold : readPagesAux docs B md lc pn (fuel + 1) =
          { cursor := some lastDoc.id
            data := (srcQuery docs lc B).map (fun d => d.data)
            metadata := mergePageNumber md pn } ::
            readPagesAux docs B md (some lastDoc.id) (pn + 1) fuel := by
        rw [readPagesAux_succ, hsnap]
      rcases i with _ | i
      · simp [hunfold]
      · have hi2 : i < (readPagesAux docs B md (some lastDoc.id) (pn + 1) fuel).length := by
          rw [hunfold] at hi; simpa using hi
        have := ih (some lastDoc.id) (pn + 1) i hi2
        have hget : (readPagesAux docs B md lc pn (fuel + 1)).get ⟨i + 1, hi⟩ =
            (readPagesAux docs B md (some lastDoc.id) (pn + 1) fuel).get ⟨i, hi2⟩ :=
          get_cons_succ_of_eq hunfold i hi hi2
        rw [hget, this]
        congr 1
        omega

/-- C5: the k-th page (k starting at 1) of one `readPages` call carries
the caller metadata shallowly merged with `pageNumber = k`, the
`pageNumber` field overwriting any same-named caller field; the merged
metadata is always defined and contains `pageNumber`, so `pageNumber`
starts at 1 and increases by 1 on successive pages. -/
theorem c5_page_metadata {D : Type} (docs : List (Doc D)) (B : Nat)
    (md : Option Metadata) (i : Nat) (hi : i < (readPages docs B md).length) :
    ((readPages docs B md).get ⟨i, hi⟩).metadata = mergePageNumber md (i + 1) ∧
    getField ((readPages docs B md).get ⟨i, hi⟩).metadata "pageNumber" =
      some (Val.num (i + 1)) ∧
    ∀ key, key ≠ "pageNumber" →
      getField ((readPages docs B md).get ⟨i, hi⟩).metadata key =
        md.bind (fun m => getField m key) := by
  have h := readPagesAux_metadata docs B md (docs.length + 1) none 1 i hi
  rw [show (1 : Nat) + i = i + 1 from by omega] at h
  have h2 : ((readPages docs B md).get ⟨i, hi⟩).metadata = mergePageNumber md (i + 1) := h
  refine ⟨h2, ?_, ?_⟩
  · rw [h2]; exact getField_mergePageNumber_self md (i + 1)
  · intro key hkey
    rw [h2]; exact getField_mergePageNumber_other md (i + 1) key hkey

/-- Witness for C5 at a concrete input. -/
theorem c5_page_metadata_witness :
    ((readPages [⟨1, 10⟩, ⟨2, 20⟩, ⟨3, 30⟩] 2 (some [("id", Val.str "a"), ("pageNumber", Val.bool true)])).get
        ⟨1, by decide⟩).metadata =
      mergePageNumber (some [("id", Val.str "a"), ("pageNumber", Val.bool true)]) (1 + 1) ∧
    getField ((readPages [⟨1, 10⟩, ⟨2, 20⟩, ⟨3, 30⟩] 2 (some [("id", Val.str "a"), ("pageNumber", Val.bool true)])).get
        ⟨1, by decide⟩).metadata "pageNumber" = some (Val.num (1 + 1)) ∧
    ∀ key, key ≠ "pageNumber" →
      getField ((readPages [⟨1, 10⟩, ⟨2, 20⟩, ⟨3, 30⟩] 2 (some [("id", Val.str "a"), ("pageNumber", Val.bool true)])).get
          ⟨1, by decide⟩).metadata key =
        (some [("id", Val.str "a"), ("pageNumber", Val.bool true)]).bind
          (fun m => getField m key) :=
  c5_page_metadata [⟨1, 10⟩, ⟨2, 20⟩, ⟨3, 30⟩] 2
    (some [("id", Val.str "a"), ("pageNumber", Val.bool true)]) 1 (by decide)

/-! ### Chunking equivalence for the source reader -/

theorem chunks_nil {D : Type} (B : Nat) : chunks B ([] : List D) = [] := by
  rw [chunks]

theorem pagesFromChunks_nil {D : Type} (md : Option Metadata) (pn : Nat) :
    pagesFromChunks (D := D) md pn [] = [] := rfl

theorem pagesFromChunks_cons {D : Type} (md : Option Metadata) (pn : Nat)
    (c : List (Doc D)) (cs : List (List (Doc D))) :
    pagesFromChunks md pn (c :: cs) =
      { cursor := (c.getLast?).map (fun d => d.id)
        data := c.map (fun d => d.data)
        metadata := mergePageNumber md pn } :: pagesFromChunks md (pn + 1) cs := rfl

theorem chunks_cons {D : Type} (B : Nat) (a : D) (t : List D) :
    chunks B (a :: t) = (a :: t.take (B - 1)) :: chunks B (t.drop (B - 1)) := by
  rw [chunks]

theorem rel_getLast_of_pairwise {A : Type} {r : A → A → Prop} (hr : ∀ a, r a a) :
    ∀ (l : List A) (hne : l ≠ []), List.Pairwise r l → ∀ x ∈ l, r x (l.getLast hne) := by
  intro l
  induction l with
  | nil => intro hne; exact absurd rfl hne
  | cons a t ih =>
    intro hne hp x hx
    cases t with
    | nil =>
      have hx2 : x = a := by simpa using hx
      subst hx2
      simp [List.getLast]
      exact hr x
    | cons b s =>
      rw [List.getLast_cons (by simp : (b :: s) ≠ [])]
      rcases (List.mem_cons.1 hx) with hx2 | hx2
      · subst hx2
        exact (List.pairwise_cons.1 hp).1 _ (List.getLast_mem (by simp))
      · exact ih (by simp) (List.pairwise_cons.1 hp).2 x hx2

/-- The relation between the consumed prefix of the traversal and the
cursor held by the loop: no cursor at the start, afterwards the id of
the last consumed document. -/
def CursorInv {D : Type} (done : List (Doc D)) (lc : Option Nat) : Prop :=
  (done = [] ∧ lc = none) ∨ ∃ hne : done ≠ [], lc = some ((done.getLast hne).id)

theorem afterC_of_inv {D : Type} {done rest : List (Doc D)} {lc : Option Nat}
    (hs : IdSorted (done ++ rest)) (hinv : CursorInv done lc) :
    afterC lc (done ++ rest) = rest := by
  rcases hinv with ⟨hdone, hlc⟩ | ⟨hne, hlc⟩
  · subst hdone; subst hlc; rfl
  · subst hlc
    have hsp := List.pairwise_append.1 hs
    have hdone_le : ∀ d ∈ done, d.id ≤ (done.getLast hne).id := by
      have hpd : List.Pairwise (fun a b : Doc D => a.id ≤ b.id) done :=
        hsp.1.imp (fun h => Nat.le_of_lt h)
      exact @rel_getLast_of_pairwise (Doc D) (fun a b => a.id ≤ b.id)
        (fun a => Nat.le_refl a.id) done hne hpd
    have hrest_gt : ∀ d ∈ rest, (done.getLast hne).id < d.id :=
      fun d hd => hsp.2.2 _ (List.getLast_mem hne) d hd
    show (done ++ rest).filter (fun d => decide ((done.getLast hne).id < d.id)) = rest
    rw [List.filter_append]
    have h1 : done.filter (fun d => decide ((done.getLast hne).id < d.id)) = [] := by
      rw [List.filter_eq_nil_iff]
      intro d hd
      simp only [decide_eq_true_eq]
      exact fun hlt => absurd (hdone_le d hd) (by omega)
    have h2 : rest.filter (fun d => decide ((done.getLast hne).id < d.id)) = rest := by
      rw [List.filter_eq_self]
      intro d hd
      simpa using hrest_gt d hd
    rw [h1, h2, List.nil_append]

theorem readPagesAux_eq_chunks {D : Type} (B : Nat) (hB : 0 < B) (md : Option Metadata) :
    ∀ (fuel : Nat) (done rest : List (Doc D)) (lc : Option Nat) (pn : Nat),
      IdSorted (done ++ rest) → CursorInv done lc → rest.length < fuel →
      readPagesAux (done ++ rest) B md lc pn fuel = pagesFromChunks md pn (chunks B rest) := by
  intro fuel
  induction fuel with
  | zero => intro done rest lc pn _ _ hlen; omega
  | succ fuel ih =>
    intro done rest lc pn hs hinv hlen
    have hsnap_eq : srcQuery (done ++ rest) lc B = rest.take B := by
      rw [srcQuery, afterC_of_inv hs hinv]
    cases rest with
    | nil =>
      rw [readPagesAux_succ, hsnap_eq]
      simp [chunks_nil, pagesFromChunks]
    | cons a t =>
      obtain ⟨b, rfl⟩ : ∃ b, B = b + 1 := ⟨B - 1, by omega⟩
      have hsnap2 : srcQuery (done ++ a :: t) lc (b + 1) = a :: t.take b := by
        rw [hsnap_eq, List.take_succ_cons]
      have hsnap_ne : (a :: t.take b) ≠ [] := by simp
      set lastDoc := (a :: t.take b).getLast hsnap_ne with hlast
      have hgl : (srcQuery (done ++ a :: t) lc (b + 1)).getLast? = some lastDoc := by
        rw [hsnap2]
        exact List.getLast?_eq_getLast _ hsnap_ne
      have hrw : done ++ a :: t = (done ++ (a :: t.take b)) ++ t.drop b := by
        rw [List.append_assoc]
        congr 1
        rw [List.cons_append]
        congr 1
        exact (List.take_append_drop b t).symm
      have hs2 : IdSorted ((done ++ (a :: t.take b)) ++ t.drop b) := by
        rw [← hrw]; exact hs
      have hinv2 : CursorInv (done ++ (a :: t.take b)) (some lastDoc.id) := by
        right
        refine ⟨List.append_ne_nil_of_right_ne_nil done hsnap_ne, ?_⟩
        congr 1
        rw [List.getLast_append]
        simp [hsnap_ne]
      have hlen2 : (t.drop b).length < fuel := by
        have := List.length_drop b t
        simp only [List.length_cons] at hlen
        omega
      have hrec := ih (done ++ (a :: t.take b)) (t.drop b) (some lastDoc.id) (pn + 1)
        hs2 hinv2 hlen2
      have hgl2 : (a :: t.take b).getLast? = some lastDoc :=
        List.getLast?_eq_getLast _ hsnap_ne
      rw [readPagesAux_succ]
      simp only [hsnap2, hgl2]
      rw [chunks_cons, Nat.add_sub_cancel, pagesFromChunks_cons]
      have hcur : ((a :: t.take b).getLast?).map (fun d => d.id) = some lastDoc.id := by
        rw [hgl2]
        rfl
      rw [hcur]
      congr 1
      rw [hrw]
      exact hrec

theorem readPages_eq_chunks {D : Type} (docs : List (Doc D)) (B : Nat)
    (md : Option Metadata) (hs : IdSorted docs) (hB : 0 < B) :
    readPages docs B md = pagesFromChunks md 1 (chunks B docs) := by
  have := readPagesAux_eq_chunks B hB md (docs.length + 1) [] docs none 1
    (by simpa using hs) (Or.inl ⟨rfl, rfl⟩) (by omega)
  simpa [readPages] using this

/-! ### Properties of the chunk decomposition -/

theorem get_zero_of_eq {A : Type} {l t : List A} {a : A} (h : l = a :: t)
    (hi : 0 < l.length) : l.get ⟨0, hi⟩ = a := by
  subst h; rfl

theorem get_congr {A : Type} {l l₂ : List A} (h : l = l₂) (i : Nat) (hi : i < l.length)
    (hi2 : i < l₂.length) : l.get ⟨i, hi⟩ = l₂.get ⟨i, hi2⟩ := by
  subst h; rfl

instance {D : Type} [DecidableEq D] (docs : List (Doc D)) : Decidable (IdSorted docs) := by
  unfold IdSorted
  infer_instance

theorem chunks_rec {D : Type} (B : Nat) (motive : List D → Prop)
    (h1 : motive [])
    (h2 : ∀ a t, motive (t.drop (B - 1)) → motive (a :: t)) :
    ∀ l, motive l := by
  have key : ∀ (n : Nat) (l : List D), l.length = n → motive l := by
    intro n
    induction n using Nat.strong_induction_on with
    | _ n ihn =>
      intro l hn
      cases l with
      | nil => exact h1
      | cons a t =>
        refine h2 a t (ihn (t.drop (B - 1)).length ?_ _ rfl)
        simp only [List.length_drop, List.length_cons] at hn ⊢
        omega
  exact fun l => key l.length l rfl

theorem chunks_flatten {D : Type} (B : Nat) (l : List D) : (chunks B l).flatten = l := by
  induction l using chunks_rec B with
  | h1 => simp [chunks_nil]
  | h2 a t ih =>
    rw [chunks_cons]
    simp only [List.flatten_cons, ih]
    rw [List.cons_append, List.take_append_drop]

theorem chunks_ne_nil {D : Type} (B : Nat) (l : List D) :
    ∀ c ∈ chunks B l, c ≠ [] := by
  induction l using chunks_rec B with
  | h1 => simp [chunks_nil]
  | h2 a t ih =>
    rw [chunks_cons]
    intro c hc
    rcases List.mem_cons.1 hc with h | h
    · subst h; simp
    · exact ih c h

theorem chunks_length {D : Type} (B : Nat) (hB : 0 < B) (l : List D) :
    (chunks B l).length = (l.length + B - 1) / B := by
  obtain ⟨b, rfl⟩ : ∃ b, B = b + 1 := ⟨B - 1, by omega⟩
  induction l using chunks_rec (b + 1) with
  | h1 =>
    rw [chunks_nil]
    simp only [List.length_nil]
    have h0 : 0 + (b + 1) - 1 = b := by omega
    rw [h0, Nat.div_eq_of_lt (by omega)]
  | h2 a t ih =>
    simp only [Nat.add_sub_cancel] at ih
    rw [chunks_cons]
    simp only [Nat.add_sub_cancel, List.length_cons]
    rw [ih, List.length_drop]
    have h1 : t.length - b + (b + 1) - 1 = (t.length - b) + b := by omega
    have h2 : t.length + 1 + (b + 1) - 1 = t.length + (b + 1) := by omega
    rw [h1, h2, Nat.add_div_right _ (by omega)]
    have h3 : (t.length - b + b) / (b + 1) = t.length / (b + 1) := by
      by_cases hbt : b ≤ t.length
      · have : t.length - b + b = t.length := by omega
        rw [this]
      · have h4 : t.length - b + b = b := by omega
        rw [h4, Nat.div_eq_of_lt (by omega), Nat.div_eq_of_lt (by omega)]
    rw [h3]

theorem chunks_get {D : Type} (B : Nat) (hB : 0 < B) (l : List D) :
    ∀ (i : Nat) (hi : i < (chunks B l).length),
      (chunks B l).get ⟨i, hi⟩ = (l.drop (B * i)).take B := by
  obtain ⟨b, rfl⟩ : ∃ b, B = b + 1 := ⟨B - 1, by omega⟩
  induction l using chunks_rec (b + 1) with
  | h1 => intro i hi; rw [chunks_nil] at hi; simp at hi
  | h2 a t ih =>
    intro i hi
    have hceq : chunks (b + 1) (a :: t) =
        (a :: t.take ((b + 1) - 1)) :: chunks (b + 1) (t.drop ((b + 1) - 1)) :=
      chunks_cons (b + 1) a t
    rcases i with _ | i
    · rw [get_zero_of_eq hceq hi]
      simp [List.take_succ_cons]
    · have hi2 : i < (chunks (b + 1) (t.drop ((b + 1) - 1))).length := by
        rw [hceq] at hi
        simpa using hi
      rw [get_cons_succ_of_eq hceq i hi hi2, ih i hi2]
      have harith : (b + 1) * (i + 1) = ((b + 1) * i + ((b + 1) - 1)) + 1 := by
        rw [Nat.add_sub_cancel]
        ring
      rw [harith, List.drop_succ_cons, List.drop_drop]
      congr 2
      omega

theorem pagesFromChunks_length {D : Type} (md : Option Metadata) :
    ∀ (pn : Nat) (cs : List (List (Doc D))),
      (pagesFromChunks md pn cs).length = cs.length := by
  intro pn cs
  induction cs generalizing pn with
  | nil => rfl
  | cons c cs ih => simp [pagesFromChunks_cons, ih]

theorem pagesFromChunks_get {D : Type} (md : Option Metadata) :
    ∀ (cs : List (List (Doc D))) (pn i : Nat)
      (hi : i < (pagesFromChunks md pn cs).length) (hi2 : i < cs.length),
      (pagesFromChunks md pn cs).get ⟨i, hi⟩ =
        { cursor := ((cs.get ⟨i, hi2⟩).getLast?).map (fun d => d.id)
          data := (cs.get ⟨i, hi2⟩).map (fun d => d.data)
          metadata := mergePageNumber md (pn + i) } := by
  intro cs
  induction cs with
  | nil => intro pn i hi hi2; simp at hi2
  | cons c cs ih =>
    intro pn i hi hi2
    rcases i with _ | i
    · rw [get_zero_of_eq (pagesFromChunks_cons md pn c cs) hi]
      rfl
    · have hi3 : i < (pagesFromChunks md (pn + 1) cs).length := by
        rw [pagesFromChunks_length]
        simpa using hi2
      rw [get_cons_succ_of_eq (pagesFromChunks_cons md pn c cs) i hi hi3]
      rw [ih (pn + 1) i hi3 (by simpa using hi2), List.get_cons_succ]
      have harith : pn + 1 + i = pn + (i + 1) := by omega
      rw [harith]

theorem pagesFromChunks_map_data {D : Type} (md : Option Metadata) :
    ∀ (pn : Nat) (cs : List (List (Doc D))),
      (pagesFromChunks md pn cs).map (fun p => p.data) =
        cs.map (fun c => c.map (fun d => d.data)) := by
  intro pn cs
  induction cs generalizing pn with
  | nil => rfl
  | cons c cs ih => simp [pagesFromChunks_cons, ih]

theorem pagesFromChunks_map_cursor {D : Type} (md : Option Metadata) :
    ∀ (pn : Nat) (cs : List (List (Doc D))),
      (pagesFromChunks md pn cs).map (fun p => p.cursor) =
        cs.map (fun c => (c.getLast?).map (fun d => d.id)) := by
  intro pn cs
  induction cs generalizing pn with
  | nil => rfl
  | cons c cs ih => simp [pagesFromChunks_cons, ih]

/-- C3: for batch size B ≥ 1 over a source result set of size N (its
cursor ids increasing in result order), one `readPages` call yields
exactly ceil(N/B) pages (zero when N = 0), the i-th page holding
min(B, N - i*B) records, every page holding at most B records, and the
concatenation of all page data arrays reproducing the full ordered
result set. -/
theorem c3_page_partition {D : Type} (docs : List (Doc D)) (B : Nat) (md : Option Metadata)
    (hs : IdSorted docs) (hB : 0 < B) :
    (readPages docs B md).length = (docs.length + B - 1) / B ∧
    (∀ (i : Nat) (hi : i < (readPages docs B md).length),
      ((readPages docs B md).get ⟨i, hi⟩).data.length = min B (docs.length - i * B)) ∧
    (∀ p ∈ readPages docs B md, p.data.length ≤ B) ∧
    ((readPages docs B md).map (fun p => p.data)).flatten = docs.map (fun d => d.data) := by
  have hlen : (readPages docs B md).length = (chunks B docs).length := by
    rw [readPages_eq_chunks docs B md hs hB, pagesFromChunks_length]
  have hsize : ∀ (i : Nat) (hi : i < (readPages docs B md).length),
      ((readPages docs B md).get ⟨i, hi⟩).data.length = min B (docs.length - i * B) := by
    intro i hi
    have hi2 : i < (chunks B docs).length := by rw [← hlen]; exact hi
    have hget : (readPages docs B md).get ⟨i, hi⟩ =
        { cursor := (((chunks B docs).get ⟨i, hi2⟩).getLast?).map (fun d => d.id)
          data := ((chunks B docs).get ⟨i, hi2⟩).map (fun d => d.data)
          metadata := mergePageNumber md (1 + i) } := by
      have he := readPages_eq_chunks docs B md hs hB
      have hi3 : i < (pagesFromChunks md 1 (chunks B docs)).length := by
        rw [pagesFromChunks_length]; exact hi2
      calc (readPages docs B md).get ⟨i, hi⟩
          = (pagesFromChunks md 1 (chunks B docs)).get ⟨i, hi3⟩ := get_congr he i hi hi3
        _ = _ := pagesFromChunks_get md (chunks B docs) 1 i hi3 hi2
    rw [hget]
    simp only [List.length_map]
    rw [chunks_get B hB docs i hi2]
    simp only [List.length_take, List.length_drop]
    have : B * i = i * B := Nat.mul_comm B i
    rw [this]
  refine ⟨by rw [hlen, chunks_length B hB], hsize, ?_, ?_⟩
  · intro p hp
    rcases List.mem_iff_get.1 hp with ⟨⟨i, hi⟩, hpi⟩
    have := hsize i hi
    rw [hpi] at this
    rw [this]
    exact Nat.min_le_left _ _
  · rw [readPages_eq_chunks docs B md hs hB, pagesFromChunks_map_data,
      ← List.map_flatten, chunks_flatten]

/-- Witness for C3 at a concrete input. -/
theorem c3_page_partition_witness :
    (readPages [⟨1, 10⟩, ⟨2, 20⟩, ⟨3, 30⟩] 2 none).length = (3 + 2 - 1) / 2 ∧
    (∀ (i : Nat) (hi : i < (readPages [⟨1, 10⟩, ⟨2, 20⟩, ⟨3, 30⟩] 2 none).length),
      ((readPages [⟨1, 10⟩, ⟨2, 20⟩, ⟨3, 30⟩] 2 none).get ⟨i, hi⟩).data.length =
        min 2 (3 - i * 2)) ∧
    (∀ p ∈ readPages [⟨1, 10⟩, ⟨2, 20⟩, ⟨3, 30⟩] 2 none, p.data.length ≤ 2) ∧
    ((readPages [⟨1, 10⟩, ⟨2, 20⟩, ⟨3, 30⟩] 2 none).map (fun p => p.data)).flatten =
      ([⟨1, 10⟩, ⟨2, 20⟩, ⟨3, 30⟩] : List (Doc Nat)).map (fun d => d.data) :=
  c3_page_partition [⟨1, 10⟩, ⟨2, 20⟩, ⟨3, 30⟩] 2 none (by decide) (by decide)

/-! ### Cursor values produced by the source reader -/

theorem readPagesAux_cursor_isSome {D : Type} (docs : List (Doc D)) (B : Nat)
    (md : Option Metadata) :
    ∀ (fuel : Nat) (lc : Option Nat) (pn : Nat),
      ∀ p ∈ readPagesAux docs B md lc pn fuel, p.cursor.isSome = true := by
  intro fuel
  induction fuel with
  | zero => intro lc pn p hp; rw [readPagesAux_zero] at hp; simp at hp
  | succ fuel ih =>
    intro lc pn p hp
    rw [readPagesAux_succ] at hp
    rcases hsnap : (srcQuery docs lc B).getLast? with _ | lastDoc
    · rw [hsnap] at hp; simp at hp
    · rw [hsnap] at hp
      rcases List.mem_cons.1 hp with h | h
      · subst h; rfl
      · exact ih (some lastDoc.id) (pn + 1) p h

theorem pages_cursor_pairwise {D : Type} (docs : List (Doc D)) (B : Nat)
    (md : Option Metadata) (hs : IdSorted docs) (hB : 0 < B) :
    List.Pairwise (fun o₁ o₂ : Option Nat => cursorLt o₁ o₂ = true)
      ((readPages docs B md).map (fun p => p.cursor)) := by
  rw [readPages_eq_chunks docs B md hs hB, pagesFromChunks_map_cursor]
  have hsf : List.Pairwise (fun a b : Doc D => a.id < b.id) (chunks B docs).flatten := by
    rw [chunks_flatten]; exact hs
  have hcross := (List.pairwise_flatten.1 hsf).2
  rw [List.pairwise_map]
  refine List.Pairwise.imp_of_mem ?_ hcross
  intro c₁ c₂ hc₁ hc₂ hcc
  have hne₁ : c₁ ≠ [] := chunks_ne_nil B docs c₁ hc₁
  have hne₂ : c₂ ≠ [] := chunks_ne_nil B docs c₂ hc₂
  rw [List.getLast?_eq_getLast _ hne₁, List.getLast?_eq_getLast _ hne₂]
  have hlt := hcc _ (List.getLast_mem hne₁) _ (List.getLast_mem hne₂)
  simpa [cursorLt] using hlt

/-! ### Order of the stored cursor field -/

theorem cursorLe_refl (a : Option Nat) : cursorLe a a = true := by
  cases a <;> simp [cursorLe]

theorem cursorLe_total (a b : Option Nat) : cursorLe a b = true ∨ cursorLe b a = true := by
  cases a <;> cases b <;> simp [cursorLe] <;> omega

theorem cursorLe_trans {a b c : Option Nat} (h₁ : cursorLe a b = true)
    (h₂ : cursorLe b c = true) : cursorLe a c = true := by
  cases a <;> cases b <;> cases c <;> simp [cursorLe] at h₁ h₂ ⊢ <;> omega

theorem cursorLt_le {a b : Option Nat} (h : cursorLt a b = true) : cursorLe a b = true := by
  cases a <;> cases b <;> simp [cursorLt, cursorLe] at h ⊢ <;> omega

theorem cursorLe_lt_asymm {a b : Option Nat} (h₁ : cursorLe a b = true)
    (h₂ : cursorLt b a = true) : False := by
  cases a <;> cases b <;> simp [cursorLt, cursorLe] at h₁ h₂ <;> omega

theorem cursorLt_isSome {a b : Option Nat} (h : cursorLt a b = true) : b.isSome = true := by
  cases b
  · simp [cursorLt] at h
  · rfl

theorem cursorLt_none_of_isSome {b : Option Nat} (h : b.isSome = true) :
    cursorLt none b = true := by
  cases b
  · simp at h
  · rfl

instance {D : Type} : IsTotal (Entry D) entryLe :=
  ⟨fun a b => cursorLe_total a.cursor b.cursor⟩

instance {D : Type} : IsTrans (Entry D) entryLe :=
  ⟨fun _ _ _ hab hbc => cursorLe_trans hab hbc⟩

/-! ### The query of the materialized-page reader -/

theorem mquery_sorted {D : Type} (entries : List (Entry D)) (f : Option Metadata)
    (lc : Option Nat) : List.Sorted entryLe (mquery entries f lc) :=
  List.sorted_insertionSort entryLe _

theorem mem_mquery {D : Type} {entries : List (Entry D)} {f : Option Metadata}
    {lc : Option Nat} {e : Entry D} :
    e ∈ mquery entries f lc ↔
      e ∈ entries ∧ cursorLt lc e.cursor = true ∧ matchesOptFilter f e = true := by
  unfold mquery
  rw [List.mem_insertionSort, List.mem_filter, Bool.and_eq_true]

theorem mquery_eq_nil {D : Type} {entries : List (Entry D)} {f : Option Metadata}
    {lc : Option Nat}
    (h : ∀ e ∈ entries, ¬(cursorLt lc e.cursor = true ∧ matchesOptFilter f e = true)) :
    mquery entries f lc = [] := by
  unfold mquery
  have hf : entries.filter (fun e => cursorLt lc e.cursor && matchesOptFilter f e) = [] := by
    rw [List.filter_eq_nil_iff]
    intro e he
    rw [Bool.and_eq_true]
    exact h e he
  rw [hf]
  rfl

theorem mquery_after_last {D : Type} (entries : List (Entry D)) (f : Option Metadata)
    (hne : mquery entries f none ≠ []) :
    mquery entries f (((mquery entries f none).getLast hne).cursor) = [] := by
  have hmemL : (mquery entries f none).getLast hne ∈ mquery entries f none :=
    List.getLast_mem hne
  have hL := mem_mquery.1 hmemL
  apply mquery_eq_nil
  rintro e he ⟨hlt, hmatch⟩
  have hesome : e.cursor.isSome = true := cursorLt_isSome hlt
  have hein : e ∈ mquery entries f none :=
    mem_mquery.2 ⟨he, cursorLt_none_of_isSome hesome, hmatch⟩
  have hsorted : List.Sorted entryLe (mquery entries f none) :=
    mquery_sorted entries f none
  have hle : entryLe e ((mquery entries f none).getLast hne) :=
    @rel_getLast_of_pairwise (Entry D) entryLe (fun a => cursorLe_refl a.cursor)
      (mquery entries f none) hne hsorted e hein
  exact cursorLe_lt_asymm hle hlt

theorem readMatAux_zero {D : Type} (entries : List (Entry D)) (f : Option Metadata)
    (lc : Option Nat) : readMatAux entries f lc 0 = ([], 0) := rfl

theorem readMatAux_succ {D : Type} (entries : List (Entry D)) (f : Option Metadata)
    (lc : Option Nat) (fuel : Nat) :
    readMatAux entries f lc (fuel + 1) =
      match (mquery entries f lc).getLast? with
      | none => ([], 1)
      | some lastEntry =>
        ((mquery entries f lc).map
            (fun e => { data := e.data, metadata := e.metadata }) ++
          (readMatAux entries f lastEntry.cursor fuel).1,
          (readMatAux entries f lastEntry.cursor fuel).2 + 1) := rfl

theorem readMaterializedPages_eq {D : Type} (entries : List (Entry D))
    (f : Option Metadata) :
    readMaterializedPages entries f =
      ((mquery entries f none).map entryOut,
        if (mquery entries f none).isEmpty = true then 1 else 2) := by
  unfold readMaterializedPages
  by_cases h : mquery entries f none = []
  · have hb : (mquery entries f none).isEmpty = true := by simp [h]
    rw [readMatAux_succ]
    simp only [List.getLast?_eq_none_iff.2 h, if_pos hb, h, List.map_nil]
    rfl
  · have hb : ¬((mquery entries f none).isEmpty = true) := by simp [h]
    have hgl := List.getLast?_eq_getLast _ h
    rw [readMatAux_succ]
    simp only [hgl]
    have hene : entries ≠ [] := by
      intro he
      apply h
      subst he
      rfl
    obtain ⟨n, hn⟩ : ∃ n, entries.length = n + 1 := by
      cases entries with
      | nil => exact absurd rfl hene
      | cons a t => exact ⟨t.length, rfl⟩
    rw [hn, readMatAux_succ]
    simp only [List.getLast?_eq_none_iff.2 (mquery_after_last entries f h)]
    rw [if_neg hb]
    simp [entryOut]

/-! ### Reading back an ordered destination -/

theorem readMat_of_pairwise {D : Type} (dest : List (Entry D))
    (hps : List.Pairwise (fun o₁ o₂ : Option Nat => cursorLt o₁ o₂ = true)
      (dest.map (fun e => e.cursor)))
    (hsome : ∀ e ∈ dest, e.cursor.isSome = true) :
    (readMaterializedPages dest none).1 = dest.map entryOut := by
  rw [readMaterializedPages_eq]
  have hfil : dest.filter (fun e => cursorLt none e.cursor && matchesOptFilter none e) =
      dest := by
    rw [List.filter_eq_self]
    intro e he
    rw [Bool.and_eq_true]
    exact ⟨cursorLt_none_of_isSome (hsome e he), rfl⟩
  have hsorted : List.Sorted entryLe dest :=
    (List.pairwise_map.1 hps).imp (fun h => cursorLt_le h)
  have hq : mquery dest none none = dest := by
    unfold mquery
    rw [hfil]
    exact List.Sorted.insertionSort_eq hsorted
  rw [hq]

/-! ### The materializer loop -/

/-- The alternating read/write operation trace of a materializer run
that stores the given entries. -/
def interleaveRW {D : Type} : List (Entry D) → List (Ev D)
  | [] => []
  | e :: es => Ev.readEv :: Ev.writeEv e :: interleaveRW es

theorem materializeAux_nil {D : Type} (fs : FailSpec) (i : Nat) (dest : List (Entry D)) :
    materializeAux fs [] i dest =
      if fs = FailSpec.failRead i then ⟨false, dest, []⟩
      else ⟨true, dest, [Ev.readEv]⟩ := rfl

theorem materializeAux_cons {D : Type} (fs : FailSpec) (p : Page D) (ps : List (Page D))
    (i : Nat) (dest : List (Entry D)) :
    materializeAux fs (p :: ps) i dest =
      if fs = FailSpec.failRead i then ⟨false, dest, []⟩
      else if fs = FailSpec.failWrite i then ⟨false, dest, [Ev.readEv]⟩
      else
        ⟨(materializeAux fs ps (i + 1) (dest ++ [pageToEntry p])).ok,
          (materializeAux fs ps (i + 1) (dest ++ [pageToEntry p])).dest,
          Ev.readEv :: Ev.writeEv (pageToEntry p) ::
            (materializeAux fs ps (i + 1) (dest ++ [pageToEntry p])).trace⟩ := rfl

theorem materializeAux_noFail {D : Type} (ps : List (Page D)) :
    ∀ (i : Nat) (dest : List (Entry D)),
      materializeAux FailSpec.noFail ps i dest =
        ⟨true, dest ++ ps.map pageToEntry,
          interleaveRW (ps.map pageToEntry) ++ [Ev.readEv]⟩ := by
  induction ps with
  | nil => intro i dest; simp [materializeAux_nil, interleaveRW]
  | cons p ps ih =>
    intro i dest
    rw [materializeAux_cons, if_neg (by simp), if_neg (by simp), ih (i + 1)]
    simp [interleaveRW, List.append_assoc]

theorem materializeAux_failRead {D : Type} (ps : List (Page D)) :
    ∀ (i k : Nat) (dest : List (Entry D)), k ≤ ps.length →
      materializeAux (FailSpec.failRead (i + k)) ps i dest =
        ⟨false, dest ++ (ps.take k).map pageToEntry,
          interleaveRW ((ps.take k).map pageToEntry)⟩ := by
  induction ps with
  | nil =>
    intro i k dest hk
    have hk0 : k = 0 := by simpa using hk
    subst hk0
    simp [materializeAux_nil, interleaveRW]
  | cons p ps ih =>
    intro i k dest hk
    rcases k with _ | k
    · rw [materializeAux_cons, if_pos (by simp)]
      simp [interleaveRW]
    · have hne1 : FailSpec.failRead (i + (k + 1)) ≠ FailSpec.failRead i := by simp
      have hne2 : FailSpec.failRead (i + (k + 1)) ≠ FailSpec.failWrite i := by simp
      rw [materializeAux_cons, if_neg hne1, if_neg hne2]
      have harith : i + (k + 1) = (i + 1) + k := by omega
      rw [harith, ih (i + 1) k _ (by simpa using hk)]
      simp [interleaveRW, List.take_succ_cons, List.append_assoc]

theorem materializeAux_failWrite {D : Type} (ps : List (Page D)) :
    ∀ (i k : Nat) (dest : List (Entry D)), k < ps.length →
      materializeAux (FailSpec.failWrite (i + k)) ps i dest =
        ⟨false, dest ++ (ps.take k).map pageToEntry,
          interleaveRW ((ps.take k).map pageToEntry) ++ [Ev.readEv]⟩ := by
  induction ps with
  | nil =>
    intro i k dest hk
    simp at hk
  | cons p ps ih =>
    intro i k dest hk
    rcases k with _ | k
    · rw [materializeAux_cons, if_neg (by simp), if_pos (by simp)]
      simp [interleaveRW]
    · have hne1 : FailSpec.failWrite (i + (k + 1)) ≠ FailSpec.failRead i := by simp
      have hne2 : FailSpec.failWrite (i + (k + 1)) ≠ FailSpec.failWrite i := by simp
      rw [materializeAux_cons, if_neg hne1, if_neg hne2]
      have harith : i + (k + 1) = (i + 1) + k := by omega
      rw [harith, ih (i + 1) k _ (by simpa using hk)]
      simp [interleaveRW, List.take_succ_cons, List.append_assoc]

/-! ### Claim theorems -/

theorem dest_map_cursor {D : Type} (pages : List (Page D)) :
    (pages.map pageToEntry).map (fun e => e.cursor) = pages.map (fun p => p.cursor) := by
  rw [List.map_map]
  rfl

/-- C2: within one `readPages` call the yielded cursor values are all
present and strictly increase in production order, and reading the
materialized entries back with `readMaterializedPages` (which orders by
the stored cursor field) yields them in exactly the order they were
produced and written. -/
theorem c2_cursor_monotone {D : Type} (docs : List (Doc D)) (B : Nat)
    (md : Option Metadata) (hs : IdSorted docs) (hB : 0 < B) :
    List.Chain' (fun p q : Page D => cursorLt p.cursor q.cursor = true)
      (readPages docs B md) ∧
    (∀ p ∈ readPages docs B md, p.cursor.isSome = true) ∧
    (readMaterializedPages ((readPages docs B md).map pageToEntry) none).1 =
      (readPages docs B md).map (fun p => entryOut (pageToEntry p)) := by
  have hpw := pages_cursor_pairwise docs B md hs hB
  have hsome : ∀ p ∈ readPages docs B md, p.cursor.isSome = true :=
    fun p hp => readPagesAux_cursor_isSome docs B md (docs.length + 1) none 1 p hp
  refine ⟨(List.pairwise_map.1 hpw).chain', hsome, ?_⟩
  have h1 : (readMaterializedPages ((readPages docs B md).map pageToEntry) none).1 =
      ((readPages docs B md).map pageToEntry).map entryOut := by
    apply readMat_of_pairwise
    · rw [dest_map_cursor]
      exact hpw
    · intro e he
      rcases List.mem_map.1 he with ⟨p, hp, hpe⟩
      rw [← hpe]
      exact hsome p hp
  rw [h1, List.map_map]
  rfl

/-- Witness for C2 at a concrete input. -/
theorem c2_cursor_monotone_witness :
    List.Chain' (fun p q : Page Nat => cursorLt p.cursor q.cursor = true)
      (readPages [⟨1, 10⟩, ⟨2, 20⟩, ⟨3, 30⟩] 2 none) ∧
    (∀ p ∈ readPages [⟨1, 10⟩, ⟨2, 20⟩, ⟨3, 30⟩] 2 none, p.cursor.isSome = true) ∧
    (readMaterializedPages ((readPages [⟨1, 10⟩, ⟨2, 20⟩, ⟨3, 30⟩] 2 none).map pageToEntry)
        none).1 =
      (readPages [⟨1, 10⟩, ⟨2, 20⟩, ⟨3, 30⟩] 2 none).map
        (fun p => entryOut (pageToEntry p)) :=
  c2_cursor_monotone [⟨1, 10⟩, ⟨2, 20⟩, ⟨3, 30⟩] 2 none (by decide) (by decide)

/-- C1: materializing a source into an empty destination and reading the
destination back with the materialized-page reader yields exactly the
data arrays `readPages` produces over the source, page for page and
hence also record for record in the same order. -/
theorem c1_round_trip {D : Type} (docs : List (Doc D)) (B : Nat) (md : Option Metadata)
    (hs : IdSorted docs) (hB : 0 < B) :
    ((readMaterializedPages (materializePaginationResults docs [] B md
        FailSpec.noFail).dest none).1).map (fun o => o.data) =
      (readPages docs B md).map (fun p => p.data) ∧
    (((readMaterializedPages (materializePaginationResults docs [] B md
        FailSpec.noFail).dest none).1).map (fun o => o.data)).flatten =
      ((readPages docs B md).map (fun p => p.data)).flatten := by
  have hdest : (materializePaginationResults docs [] B md FailSpec.noFail).dest =
      (readPages docs B md).map pageToEntry := by
    rw [materializePaginationResults, materializeAux_noFail]
    simp
  have h1 : (readMaterializedPages (materializePaginationResults docs [] B md
      FailSpec.noFail).dest none).1 =
      ((readPages docs B md).map pageToEntry).map entryOut := by
    rw [hdest]
    apply readMat_of_pairwise
    · rw [dest_map_cursor]
      exact pages_cursor_pairwise docs B md hs hB
    · intro e he
      rcases List.mem_map.1 he with ⟨p, hp, hpe⟩
      rw [← hpe]
      exact readPagesAux_cursor_isSome docs B md (docs.length + 1) none 1 p hp
  constructor
  · rw [h1, List.map_map, List.map_map]
    rfl
  · rw [h1, List.map_map, List.map_map]
    rfl

/-- Witness for C1 at a concrete input. -/
theorem c1_round_trip_witness :
    ((readMaterializedPages (materializePaginationResults [⟨1, 10⟩, ⟨2, 20⟩, ⟨3, 30⟩] [] 2
        none FailSpec.noFail).dest none).1).map (fun o => o.data) =
      (readPages [⟨1, 10⟩, ⟨2, 20⟩, ⟨3, 30⟩] 2 none).map (fun p => p.data) ∧
    (((readMaterializedPages (materializePaginationResults [⟨1, 10⟩, ⟨2, 20⟩, ⟨3, 30⟩] [] 2
        none FailSpec.noFail).dest none).1).map (fun o => o.data)).flatten =
      ((readPages [⟨1, 10⟩, ⟨2, 20⟩, ⟨3, 30⟩] 2 none).map (fun p => p.data)).flatten :=
  c1_round_trip [⟨1, 10⟩, ⟨2, 20⟩, ⟨3, 30⟩] 2 none (by decide) (by decide)

/-- C4: the materializer is fully sequential — without failure it
performs read, write, read, write, ... and one final read, writing the
pages in exactly the order `readPages` produces them; if the k-th page
read fails it stops with a failure after k completed read/write pairs,
and if the k-th page write fails it stops with a failure right after the
k-th read; in every case the pages already written remain in the
destination and nothing is rolled back. -/
theorem c4_sequential_abort {D : Type} (docs : List (Doc D)) (B : Nat)
    (md : Option Metadata) (dest₀ : List (Entry D)) (k₁ k₂ : Nat)
    (hk₁ : k₁ ≤ (readPages docs B md).length)
    (hk₂ : k₂ < (readPages docs B md).length) :
    materializePaginationResults docs dest₀ B md FailSpec.noFail =
      ⟨true, dest₀ ++ (readPages docs B md).map pageToEntry,
        interleaveRW ((readPages docs B md).map pageToEntry) ++ [Ev.readEv]⟩ ∧
    materializePaginationResults docs dest₀ B md (FailSpec.failRead k₁) =
      ⟨false, dest₀ ++ ((readPages docs B md).take k₁).map pageToEntry,
        interleaveRW (((readPages docs B md).take k₁).map pageToEntry)⟩ ∧
    materializePaginationResults docs dest₀ B md (FailSpec.failWrite k₂) =
      ⟨false, dest₀ ++ ((readPages docs B md).take k₂).map pageToEntry,
        interleaveRW (((readPages docs B md).take k₂).map pageToEntry) ++ [Ev.readEv]⟩ := by
  refine ⟨?_, ?_, ?_⟩
  · rw [materializePaginationResults, materializeAux_noFail]
  · rw [materializePaginationResults,
      show k₁ = 0 + k₁ from by omega,
      materializeAux_failRead (readPages docs B md) 0 k₁ dest₀ hk₁]
    simp
  · rw [materializePaginationResults,
      show k₂ = 0 + k₂ from by omega,
      materializeAux_failWrite (readPages docs B md) 0 k₂ dest₀ hk₂]
    simp

/-- Witness for C4 at a concrete input. -/
theorem c4_sequential_abort_witness :
    materializePaginationResults [⟨1, 10⟩, ⟨2, 20⟩, ⟨3, 30⟩] [] 2 none FailSpec.noFail =
      ⟨true, [] ++ (readPages [⟨1, 10⟩, ⟨2, 20⟩, ⟨3, 30⟩] 2 none).map pageToEntry,
        interleaveRW ((readPages [⟨1, 10⟩, ⟨2, 20⟩, ⟨3, 30⟩] 2 none).map pageToEntry) ++
          [Ev.readEv]⟩ ∧
    materializePaginationResults [⟨1, 10⟩, ⟨2, 20⟩, ⟨3, 30⟩] [] 2 none
        (FailSpec.failRead 2) =
      ⟨false, [] ++ ((readPages [⟨1, 10⟩, ⟨2, 20⟩, ⟨3, 30⟩] 2 none).take 2).map pageToEntry,
        interleaveRW (((readPages [⟨1, 10⟩, ⟨2, 20⟩, ⟨3, 30⟩] 2 none).take 2).map
          pageToEntry)⟩ ∧
    materializePaginationResults [⟨1, 10⟩, ⟨2, 20⟩, ⟨3, 30⟩] [] 2 none
        (FailSpec.failWrite 1) =
      ⟨false, [] ++ ((readPages [⟨1, 10⟩, ⟨2, 20⟩, ⟨3, 30⟩] 2 none).take 1).map pageToEntry,
        interleaveRW (((readPages [⟨1, 10⟩, ⟨2, 20⟩, ⟨3, 30⟩] 2 none).take 1).map
          pageToEntry) ++ [Ev.readEv]⟩ :=
  c4_sequential_abort [⟨1, 10⟩, ⟨2, 20⟩, ⟨3, 30⟩] 2 none [] 2 1 (by decide) (by decide)

/-- C6: each metadata filter pair acts as an equality constraint on the
stored metadata field, so the reader over a destination with a filter
yields exactly what it would yield over the destination restricted to
the entries whose metadata matches every filter pair; in the concrete
scenario with stored metadata `id = "a"` and `id = "b"`, filtering on
`id = "a"` yields only the first entry's data. -/
theorem c6_metadata_filter {D : Type} :
    (∀ (dest : List (Entry D)) (f : Metadata),
      readMaterializedPages dest (some f) =
        readMaterializedPages (dest.filter (fun e => entryMatches f e)) none) ∧
    (readMaterializedPages
        ([⟨some 1, [10], some [("id", Val.str "a")]⟩,
          ⟨some 2, [20], some [("id", Val.str "b")]⟩] : List (Entry Nat))
        (some [("id", Val.str "a")])).1 =
      [⟨[10], some [("id", Val.str "a")]⟩] := by
  constructor
  · intro dest f
    have hq : mquery dest (some f) none =
        mquery (dest.filter (fun e => entryMatches f e)) none none := by
      unfold mquery
      rw [List.filter_filter]
      have : ∀ e ∈ dest,
          (cursorLt none e.cursor && matchesOptFilter (some f) e) =
            ((cursorLt none e.cursor && matchesOptFilter none e) && entryMatches f e) := by
        intro e he
        simp [matchesOptFilter, Bool.and_comm]
      rw [List.filter_congr this]
    rw [readMaterializedPages_eq, readMaterializedPages_eq, hq]
  · decide

/-- C7: a source query matching zero records makes `readPages` yield
zero pages (never an empty page), the materializer perform zero writes
(its operation trace is the single empty read), and the materialized
reader over an empty destination yield zero entries. -/
theorem c7_empty_source {D : Type} (B : Nat) (md : Option Metadata) (f : Option Metadata) :
    readPages ([] : List (Doc D)) B md = [] ∧
    (materializePaginationResults ([] : List (Doc D)) [] B md FailSpec.noFail).dest = [] ∧
    (materializePaginationResults ([] : List (Doc D)) [] B md FailSpec.noFail).trace =
      [Ev.readEv] ∧
    (readMaterializedPages ([] : List (Entry D)) f).1 = [] := by
  have hrp : readPages ([] : List (Doc D)) B md = [] := by
    rw [readPages, readPagesAux_succ]
    have hsq : srcQuery ([] : List (Doc D)) none B = [] := by
      simp [srcQuery, afterC]
    rw [hsq]
    rfl
  have hmat := materializeAux_noFail ([] : List (Page D)) 0 ([] : List (Entry D))
  refine ⟨hrp, ?_, ?_, ?_⟩
  · rw [materializePaginationResults, hrp, hmat]
    rfl
  · rw [materializePaginationResults, hrp, hmat]
    rfl
  · rw [readMaterializedPages_eq]
    have hq : mquery ([] : List (Entry D)) f none = [] := rfl
    rw [hq]
    rfl

/-- C9: one call of `savePageToCollection` appends exactly one entry to
the destination, whose fields are exactly the given data, cursor and
metadata, leaving every entry already present unchanged — one write,
nothing else. -/
theorem c9_save_single_write {D : Type} (collectionRef : List (Entry D)) (data : List D)
    (cursor : Option Nat) (metadata : Option Metadata) :
    (savePageToCollection collectionRef data cursor metadata).length =
      collectionRef.length + 1 ∧
    (savePageToCollection collectionRef data cursor metadata).take collectionRef.length =
      collectionRef ∧
    (savePageToCollection collectionRef data cursor metadata).drop collectionRef.length =
      [{ cursor := cursor, data := data, metadata := metadata }] := by
  refine ⟨by simp [savePageToCollection], ?_, ?_⟩
  · rw [savePageToCollection]
    exact List.take_left _ _
  · rw [savePageToCollection]
    exact List.drop_left _ _

/-- C10: the destination query of `readMaterializedPages` carries no
limit, so over an unchanging destination the first execution already
returns every matching entry, the generator yields exactly their images,
at most two queries are executed, and exactly one is executed precisely
when no entry matches. -/
theorem c10_two_queries {D : Type} (entries : List (Entry D)) (f : Option Metadata) :
    (readMaterializedPages entries f).1 = (mquery entries f none).map entryOut ∧
    (readMaterializedPages entries f).2 ≤ 2 ∧
    ((readMaterializedPages entries f).2 = 1 ↔ mquery entries f none = []) := by
  rw [readMaterializedPages_eq]
  by_cases h : mquery entries f none = [] <;> simp [h]

/-! ### The 25-record scenario -/

/-- Source of the 25-record scenario: 25 documents in ascending sort
order with increasing ids. -/
def c8docs : List (Doc Nat) := (List.range 25).map (fun i => ⟨i + 1, 100 + i⟩)

/-- Destination produced by materializing the 25-record source with
batch size 10 into an empty destination. -/
def c8dest : List (Entry Nat) :=
  (materializePaginationResults c8docs [] 10 none FailSpec.noFail).dest

/-- C8 counterexample: reading the materialized destination of the
25-record scenario back does not yield 25 items — the reader yields one
item per stored entry and only 3 entries were stored. -/
theorem c8_scenario_counterexample :
    ¬ ((readMaterializedPages c8dest none).1.length = 25) := by decide

/-- C8 (amended): with 25 sorted records and batch size 10, `readPages`
yields 3 pages of sizes 10, 10 and 5; after materializing,
`readMaterializedPages` yields 3 items — one per stored entry, not one
per query batch and not one per record — whose data arrays are exactly
the 3 page data arrays and concatenate to the 25 records in the original
order. -/
theorem c8_scenario :
    (readPages c8docs 10 none).map (fun p => p.data.length) = [10, 10, 5] ∧
    (readMaterializedPages c8dest none).1.length = 3 ∧
    (readMaterializedPages c8dest none).1.map (fun o => o.data) =
      (readPages c8docs 10 none).map (fun p => p.data) ∧
    ((readMaterializedPages c8dest none).1.map (fun o => o.data)).flatten =
      c8docs.map (fun d => d.data) := by decide
